import Mathlib

/-!
Verification of the statevector quantum-circuit simulation core behind the
qc repository. The observable scripts (src/spooky_cq.py and
src/scripts/quantum_teleportation.py) build circuits out of rotation-Y,
Hadamard, controlled-NOT, Pauli-X and Pauli-Z gates, measurements, barriers
and classically-conditioned corrections, and hand them to a simulator. The
simulation engine itself is an external dependency, so its data model and
operational semantics are modelled here from the specification; the concrete
circuits are translated directly from the two scripts. All supported gates
have real-valued matrices, so amplitudes are modelled as real numbers
(machine floats are idealised as reals).
-/

set_option maxHeartbeats 1600000

noncomputable section

namespace QC

/-- Initial amplitude vector of a register: the all-zeros basis state. -/
def initAmp : ℕ → ℝ := fun i => if i = 0 then 1 else 0

/-- Modelled from the spec: the 2x2 matrix of the rotation-Y gate,
[[cos(θ/2), -sin(θ/2)], [sin(θ/2), cos(θ/2)]]. -/
def ryMat (θ : ℝ) : Fin 2 → Fin 2 → ℝ := fun a b =>
  if a = 0 then (if b = 0 then Real.cos (θ / 2) else -Real.sin (θ / 2))
  else (if b = 0 then Real.sin (θ / 2) else Real.cos (θ / 2))

/-- Modelled from the spec: the 2x2 Hadamard matrix, with every entry equal to
the inverse of the square root of two except the lower-right entry, which is
its negation. -/
def hMat : Fin 2 → Fin 2 → ℝ := fun a b =>
  if a = 1 ∧ b = 1 then -(Real.sqrt 2)⁻¹ else (Real.sqrt 2)⁻¹

/-- Modelled from the spec: the 2x2 Pauli-X matrix. -/
def xMat : Fin 2 → Fin 2 → ℝ := fun a b => if a = b then 0 else 1

/-- Modelled from the spec: the 2x2 Pauli-Z matrix. -/
def zMat : Fin 2 → Fin 2 → ℝ := fun a b =>
  if a = b then (if a = 0 then 1 else -1) else 0

/-- Modelled from the spec: application of a single-qubit gate matrix to the
amplitude vector, pairing every basis index with the index differing only in
the target qubit bit and applying the 2x2 matrix to the amplitude pair. -/
def applyM (m : Fin 2 → Fin 2 → ℝ) (q : ℕ) (ψ : ℕ → ℝ) : ℕ → ℝ := fun i =>
  if i.testBit q then m 1 1 * ψ i + m 1 0 * ψ (i ^^^ 2 ^ q)
  else m 0 0 * ψ i + m 0 1 * ψ (i ^^^ 2 ^ q)

/-- Modelled from the spec: controlled-NOT swaps the amplitudes of basis-state
pairs differing only in the target bit, restricted to basis states whose
control bit is one; control-zero basis states are untouched. -/
def applyCX (c t : ℕ) (ψ : ℕ → ℝ) : ℕ → ℝ := fun i =>
  ψ (if i.testBit c then i ^^^ 2 ^ t else i)

/-- Unitary gate specification: the supported gate kinds with their target
qubit indices and parameters. -/
inductive UGate where
  | ry (θ : ℝ) (q : ℕ)
  | had (q : ℕ)
  | cx (c t : ℕ)
  | x (q : ℕ)
  | z (q : ℕ)

/-- Modelled from the spec: the Gate Library, mapping a gate specification to
its effect on the amplitude vector. -/
def applyU : UGate → (ℕ → ℝ) → (ℕ → ℝ)
  | .ry θ q => applyM (ryMat θ) q
  | .had q => applyM hMat q
  | .cx c t => applyCX c t
  | .x q => applyM xMat q
  | .z q => applyM zMat q

/-- Qubit indices addressed by a gate specification. -/
def UGate.targets : UGate → List ℕ
  | .ry _ q => [q]
  | .had q => [q]
  | .cx c t => [c, t]
  | .x q => [q]
  | .z q => [q]

/-- Validity of a gate on an n-qubit register: all addressed qubits are in
range, and a controlled-NOT has distinct control and target qubits. -/
def UGate.valid (n : ℕ) : UGate → Prop
  | .ry _ q => q < n
  | .had q => q < n
  | .cx c t => c < n ∧ t < n ∧ c ≠ t
  | .x q => q < n
  | .z q => q < n

/-- Operations of a circuit: a tagged variant of unitaries, barriers,
measurements, and classically-conditioned unitaries. -/
inductive Op where
  | unitary (u : UGate)
  | barrier
  | measure (q cb : ℕ)
  | cond (cb : ℕ) (expected : Bool) (u : UGate)

/-- A circuit: register sizes plus an ordered operation list. -/
structure Circuit where
  numQubits : ℕ
  numClbits : ℕ
  ops : List Op

/-- Build-time errors of the circuit builder. -/
inductive BuildError where
  | invalidQubitIndex
  | invalidClassicalBitIndex

/-- Modelled from the spec: appending a unitary operation validates its qubit
indices against the register size at circuit-build time, rejecting the
malformed operation before execution. -/
def Circuit.applyUnitary (circ : Circuit) (u : UGate) : Except BuildError Circuit :=
  if u.targets.all (fun q => q < circ.numQubits)
  then .ok { circ with ops := circ.ops ++ [Op.unitary u] }
  else .error .invalidQubitIndex

/-- Total probability carried by an amplitude vector on an n-qubit register:
the sum of squared magnitudes over all basis states. -/
def sumSq (n : ℕ) (ψ : ℕ → ℝ) : ℝ := ∑ i ∈ Finset.range (2 ^ n), ψ i ^ 2

/-- Modelled from the spec: probability of observing outcome o when measuring
qubit q, the sum of squared magnitudes over basis states whose q bit is o. -/
def pOutcome (n q : ℕ) (o : Bool) (ψ : ℕ → ℝ) : ℝ :=
  ∑ i ∈ Finset.range (2 ^ n), if i.testBit q = o then ψ i ^ 2 else 0

/-- Modelled from the spec: collapse after measuring outcome o on qubit q,
zeroing all amplitudes whose q bit differs from o and renormalizing the rest
by the square root of the outcome probability. -/
def collapse (n q : ℕ) (o : Bool) (ψ : ℕ → ℝ) : ℕ → ℝ := fun i =>
  if i.testBit q = o then ψ i / Real.sqrt (pOutcome n q o ψ) else 0

/-- Per-trial mutable execution state: the working amplitude vector and the
Classical Bit Store. -/
structure ExecState where
  amp : ℕ → ℝ
  cbits : List (Option Bool)

/-- Execution-time errors of the simulator. -/
inductive ExecError where
  | degenerateCollapse
  | unboundClassicalBit

/-- Modelled from the spec: a measurement with drawn outcome o collapses the
state and writes o into the Classical Bit Store, and fails with the
degenerate-collapse error exactly when the outcome probability is zero. -/
def measureStep (n q cb : ℕ) (o : Bool) (st : ExecState) : Except ExecError ExecState :=
  if pOutcome n q o st.amp = 0 then .error .degenerateCollapse
  else .ok ⟨collapse n q o st.amp, st.cbits.set cb (some o)⟩

/-- Modelled from the spec: a conditional unitary reads the Classical Bit
Store; unset bits fail, a stored value equal to the expected value applies
the inner unitary, and any other stored value is a no-op. -/
def condStep (cb : ℕ) (expected : Bool) (u : UGate) (st : ExecState) : Except ExecError ExecState :=
  match st.cbits.getD cb none with
  | none => .error .unboundClassicalBit
  | some v => if v = expected then .ok ⟨applyU u st.amp, st.cbits⟩ else .ok st

/-- Modelled from the spec: the executor folds the operation list in order
over the execution state. Measurements consume one draw from the random
source, which is given the probability of outcome one and returns the drawn
outcome; the second component counts the draws consumed. -/
def execOps (n : ℕ) (draw : ℕ → ℝ → Bool) :
    List Op → ℕ → ExecState → Except ExecError (ExecState × ℕ)
  | [], k, st => .ok (st, k)
  | Op.unitary u :: rest, _k, st =>
      execOps n draw rest _k ⟨applyU u st.amp, st.cbits⟩
  | Op.barrier :: rest, k, st => execOps n draw rest k st
  | Op.measure q cb :: rest, k, st =>
      match measureStep n q cb (draw k (pOutcome n q true st.amp)) st with
      | .error e => .error e
      | .ok st2 => execOps n draw rest (k + 1) st2
  | Op.cond cb expected u :: rest, k, st =>
      match condStep cb expected u st with
      | .error e => .error e
      | .ok st2 => execOps n draw rest k st2

/-- Modelled from the spec: statevector mode folds the unitary operations of
the list over an amplitude vector, skipping barriers and not collapsing on
measurements. -/
def runStatevector : List Op → (ℕ → ℝ) → (ℕ → ℝ)
  | [], ψ => ψ
  | Op.unitary u :: rest, ψ => runStatevector rest (applyU u ψ)
  | _ :: rest, ψ => runStatevector rest ψ

/-- Modelled from the spec: a uniform draw u in the unit interval yields
outcome one when u is below the probability of outcome one. -/
def drawOutcome (u p1 : ℝ) : Bool := decide (u < p1)

/-- Random source backed by a stream of uniform draws. -/
def uniformDraw (u : ℕ → ℝ) : ℕ → ℝ → Bool := fun k p1 => drawOutcome (u k) p1

/-- Modelled from the spec: one sampling-mode trial, running the full
operation list with genuine collapse from a fresh initial amplitude vector
and fresh Classical Bit Store, producing the Classical Bit Store contents. -/
def trialBits (circ : Circuit) (draw : ℕ → ℝ → Bool) :
    Except ExecError (List (Option Bool)) :=
  (execOps circ.numQubits draw circ.ops 0
    ⟨initAmp, List.replicate circ.numClbits none⟩).map fun p => p.1.cbits

/-- Single-qubit reduced density matrix of qubit q: entries are sums over the
remaining qubits of products of amplitudes whose q bit is fixed to the row
and column index respectively (amplitudes are real, so no conjugation). -/
def reducedDM (n q : ℕ) (ψ : ℕ → ℝ) : Fin 2 → Fin 2 → ℝ := fun a b =>
  ∑ i ∈ (Finset.range (2 ^ n)).filter (fun i => i.testBit q = false),
    ψ (if a = 0 then i else i ^^^ 2 ^ q) * ψ (if b = 0 then i else i ^^^ 2 ^ q)

/-- From src/scripts/quantum_teleportation.py: create_message_state applies
rotation-Y with the message angle to the given qubit, then a barrier. -/
def create_message_state (q : ℕ) (θ : ℝ) : List Op :=
  [Op.unitary (UGate.ry θ q), Op.barrier]

/-- From src/scripts/quantum_teleportation.py: create_entangled_pair applies
Hadamard to the first qubit and controlled-NOT onto the second, then a
barrier. -/
def create_entangled_pair (q1 q2 : ℕ) : List Op :=
  [Op.unitary (UGate.had q1), Op.unitary (UGate.cx q1 q2), Op.barrier]

/-- From src/scripts/quantum_teleportation.py: teleportation_protocol applies
controlled-NOT from the message qubit onto the entangled qubit and Hadamard
to the message qubit, then a barrier. The target qubit parameter is unused,
exactly as in the script. -/
def teleportation_protocol (msg ent tgt : ℕ) : List Op :=
  let _ := tgt
  [Op.unitary (UGate.cx msg ent), Op.unitary (UGate.had msg), Op.barrier]

/-- From src/scripts/quantum_teleportation.py:
classical_communication_and_reconstruction measures the message qubit into
cbit1 and the entangled qubit into cbit2, places a barrier, then appends the
conditional X on the target guarded on cbit2 being one, followed by the
conditional Z guarded on cbit1 being one. -/
def classical_communication_and_reconstruction (msg ent tgt cbit1 cbit2 : ℕ) : List Op :=
  [Op.measure msg cbit1, Op.measure ent cbit2, Op.barrier,
   Op.cond cbit2 true (UGate.x tgt), Op.cond cbit1 true (UGate.z tgt)]

/-- From src/scripts/quantum_teleportation.py: the full protocol circuit on
three qubits and two classical bits, composed exactly as in the script. -/
def qc_protocol_ops (θ : ℝ) : List Op :=
  create_message_state 0 θ ++ create_entangled_pair 1 2 ++
    teleportation_protocol 0 1 2 ++ classical_communication_and_reconstruction 0 1 2 0 1

/-- From src/scripts/quantum_teleportation.py: the verification circuit
qc_verify re-applies the protocol gates without measurements and saves the
statevector at that point. -/
def qc_verify_ops (θ : ℝ) : List Op :=
  create_message_state 0 θ ++ create_entangled_pair 1 2 ++ teleportation_protocol 0 1 2

/-- From src/spooky_cq.py: the Bell circuit on two qubits and two classical
bits, applying Hadamard to qubit zero, controlled-NOT from qubit zero to
qubit one, and measuring both qubits into the matching classical bits. -/
def spooky_circuit : Circuit :=
  ⟨2, 2, [Op.unitary (UGate.had 0), Op.unitary (UGate.cx 0 1),
          Op.measure 0 0, Op.measure 1 1]⟩

/-- Single-qubit message state prepared by rotation-Y on the all-zeros
state. -/
def messageAmp (θ : ℝ) : ℕ → ℝ := applyU (UGate.ry θ 0) initAmp

/-- Amplitude vector of the teleportation circuit just before measurement:
the unitary prefix of the protocol applied to the all-zeros state. -/
def teleA (θ : ℝ) : ℕ → ℝ :=
  applyU (UGate.had 0) (applyU (UGate.cx 0 1) (applyU (UGate.cx 1 2)
    (applyU (UGate.had 1) (applyU (UGate.ry θ 0) initAmp))))

/-- State after the first teleportation measurement collapsed to outcome
o1. -/
def teleB (θ : ℝ) (o1 : Bool) : ℕ → ℝ := collapse 3 0 o1 (teleA θ)

/-- State after both teleportation measurements collapsed to outcomes o1 and
o2. -/
def teleC (θ : ℝ) (o1 o2 : Bool) : ℕ → ℝ := collapse 3 1 o2 (teleB θ o1)

/-- Outcome source that answers the first draw with o1 and later draws with
o2, regardless of the probabilities. -/
def teleDraw (o1 o2 : Bool) : ℕ → ℝ → Bool := fun k _ => if k = 0 then o1 else o2

/-- Stream whose first element is u1 and whose later elements are u2. -/
def pairStream (u1 u2 : ℝ) : ℕ → ℝ := fun k => if k = 0 then u1 else u2

/-- State of the teleportation circuit after both measurements and the two
conditional corrections, for measured outcomes o1 and o2. -/
def teleFinalAmp (θ : ℝ) (o1 o2 : Bool) : ℕ → ℝ :=
  (if o1 = true then applyU (UGate.z 2) else id)
    ((if o2 = true then applyU (UGate.x 2) else id) (teleC θ o1 o2))

/-- Amplitude vector of the Bell circuit before measurement. -/
def bellAmp : ℕ → ℝ := applyU (UGate.cx 0 1) (applyU (UGate.had 0) initAmp)

/-- Bell state collapsed to outcome o on qubit zero. -/
def bellColl (o : Bool) : ℕ → ℝ := collapse 2 0 o bellAmp

/-- Basis index addressed by a two-bit classical outcome, bit i of the index
holding the value measured from qubit i. -/
def bitsIdx (b0 b1 : Bool) : ℕ := (cond b0 1 0) + 2 * (cond b1 1 0)

/-- Gate-only circuit operations: a unitary of the supported gate set that is
valid on the n-qubit register, or a barrier. -/
def Op.validGate (n : ℕ) : Op → Prop
  | Op.unitary u => u.valid n
  | Op.barrier => True
  | _ => False

/-- Modelled from the spec: probability that sampling mode draws the outcome
sequence os when measuring the qubits qs in order, each outcome drawn with
its probability under the state collapsed by the preceding measurements. -/
def seqProb (n : ℕ) : List ℕ → List Bool → (ℕ → ℝ) → ℝ
  | [], [], _ => 1
  | q :: qs, o :: os, ψ => pOutcome n q o ψ * seqProb n qs os (collapse n q o ψ)
  | _, _, _ => 0

/-- Modelled from the spec: the probability implied by an amplitude vector
for the joint assignment os of outcomes to the measured qubits qs, the sum of
squared magnitudes over all basis states matching the assignment. -/
def bornProb (n : ℕ) (qs : List ℕ) (os : List Bool) (ψ : ℕ → ℝ) : ℝ :=
  ∑ i ∈ (Finset.range (2 ^ n)).filter
    (fun i => ∀ p ∈ qs.zip os, i.testBit p.1 = p.2), ψ i ^ 2

end QC

end

namespace QC

/-! Arithmetic facts about the square root of two. -/

lemma invSqrt2_mul_self : (Real.sqrt 2)⁻¹ * (Real.sqrt 2)⁻¹ = 1 / 2 := by
  rw [← mul_inv, Real.mul_self_sqrt (by norm_num : (0:ℝ) ≤ 2)]
  norm_num

lemma sqrt_half : Real.sqrt (1 / 2) = (Real.sqrt 2)⁻¹ := by
  rw [show (1 / 2 : ℝ) = 2⁻¹ by norm_num, Real.sqrt_inv]

/-! Bit-flip pairing of basis indices. -/

lemma xor_flip_mem {n q i : ℕ} (hq : q < n) (hi : i < 2 ^ n) : i ^^^ 2 ^ q < 2 ^ n :=
  Nat.xor_lt_two_pow hi (Nat.pow_lt_pow_right (by norm_num) hq)

lemma xor_flip_testBit (i q : ℕ) : (i ^^^ 2 ^ q).testBit q = !(i.testBit q) := by
  rw [Nat.testBit_xor, Nat.testBit_two_pow_self]
  cases i.testBit q <;> rfl

lemma xor_flip_testBit_ne (i q r : ℕ) (h : r ≠ q) : (i ^^^ 2 ^ q).testBit r = i.testBit r := by
  simp [Nat.testBit_xor, Nat.testBit_two_pow, Ne.symm h]

lemma sum_pair_split (n q : ℕ) (hq : q < n) (f : ℕ → ℝ) :
    ∑ i ∈ Finset.range (2 ^ n), f i =
      ∑ i ∈ (Finset.range (2 ^ n)).filter (fun i => i.testBit q = false),
        (f i + f (i ^^^ 2 ^ q)) := by
  rw [Finset.sum_add_distrib]
  rw [← Finset.sum_filter_add_sum_filter_not (Finset.range (2 ^ n))
        (fun i => i.testBit q = false) f]
  congr 1
  apply Finset.sum_nbij' (fun i => i ^^^ 2 ^ q) (fun i => i ^^^ 2 ^ q)
  · intro a ha
    simp only [Finset.mem_filter, Finset.mem_range, Bool.not_eq_false] at ha
    simp only [Finset.mem_filter, Finset.mem_range]
    exact ⟨xor_flip_mem hq ha.1, by rw [xor_flip_testBit, ha.2]; rfl⟩
  · intro a ha
    simp only [Finset.mem_filter, Finset.mem_range] at ha
    simp only [Finset.mem_filter, Finset.mem_range, Bool.not_eq_false]
    exact ⟨xor_flip_mem hq ha.1, by rw [xor_flip_testBit, ha.2]; rfl⟩
  · intro a _
    exact Nat.xor_cancel_right _ _
  · intro a _
    exact Nat.xor_cancel_right _ _
  · intro a _
    rw [Nat.xor_cancel_right]

/-! Norm preservation of the gate library. -/

lemma applyM_sumSq (n q : ℕ) (hq : q < n) (m : Fin 2 → Fin 2 → ℝ)
    (h1 : m 0 0 ^ 2 + m 1 0 ^ 2 = 1) (h2 : m 0 1 ^ 2 + m 1 1 ^ 2 = 1)
    (h3 : m 0 0 * m 0 1 + m 1 0 * m 1 1 = 0) (ψ : ℕ → ℝ) :
    sumSq n (applyM m q ψ) = sumSq n ψ := by
  unfold sumSq
  rw [sum_pair_split n q hq (fun i => applyM m q ψ i ^ 2),
      sum_pair_split n q hq (fun i => ψ i ^ 2)]
  apply Finset.sum_congr rfl
  intro i hi
  simp only [Finset.mem_filter, Finset.mem_range] at hi
  have hflip : (i ^^^ 2 ^ q).testBit q = true := by
    rw [xor_flip_testBit, hi.2]
    rfl
  simp only [applyM, hi.2, hflip, Nat.xor_cancel_right, if_true, if_false,
    Bool.false_eq_true, Bool.true_eq_false]
  linear_combination (ψ i ^ 2) * h1 + (ψ (i ^^^ 2 ^ q) ^ 2) * h2 +
    (2 * ψ i * ψ (i ^^^ 2 ^ q)) * h3

lemma applyCX_sumSq (n c t : ℕ) (_hc : c < n) (ht : t < n) (hct : c ≠ t) (ψ : ℕ → ℝ) :
    sumSq n (applyCX c t ψ) = sumSq n ψ := by
  unfold sumSq applyCX
  apply Finset.sum_nbij' (fun i => if i.testBit c then i ^^^ 2 ^ t else i)
    (fun i => if i.testBit c then i ^^^ 2 ^ t else i)
  · intro a ha
    simp only [Finset.mem_range] at ha ⊢
    by_cases h : a.testBit c <;> simp [h, xor_flip_mem ht ha, ha]
  · intro a ha
    simp only [Finset.mem_range] at ha ⊢
    by_cases h : a.testBit c <;> simp [h, xor_flip_mem ht ha, ha]
  · intro a _
    by_cases h : a.testBit c
    · simp [h, xor_flip_testBit_ne a t c hct, Nat.xor_cancel_right]
    · simp [h]
  · intro a _
    by_cases h : a.testBit c
    · simp [h, xor_flip_testBit_ne a t c hct, Nat.xor_cancel_right]
    · simp [h]
  · intro a _
    rfl

lemma applyU_sumSq (n : ℕ) (u : UGate) (hu : u.valid n) (ψ : ℕ → ℝ) :
    sumSq n (applyU u ψ) = sumSq n ψ := by
  cases u with
  | ry θ q =>
      exact applyM_sumSq n q hu (ryMat θ)
        (by simp [ryMat]; try nlinarith [Real.sin_sq_add_cos_sq (θ/2)])
        (by simp [ryMat]; try nlinarith [Real.sin_sq_add_cos_sq (θ/2)])
        (by simp [ryMat]; try ring) ψ
  | had q =>
      exact applyM_sumSq n q hu hMat
        (by simp [hMat]; try nlinarith [invSqrt2_mul_self])
        (by simp [hMat]; try nlinarith [invSqrt2_mul_self])
        (by simp [hMat]; try ring) ψ
  | cx c t =>
      exact applyCX_sumSq n c t hu.1 hu.2.1 hu.2.2 ψ
  | x q =>
      exact applyM_sumSq n q hu xMat (by norm_num [xMat]) (by norm_num [xMat])
        (by norm_num [xMat]) ψ
  | z q =>
      exact applyM_sumSq n q hu zMat (by norm_num [zMat]) (by norm_num [zMat])
        (by norm_num [zMat]) ψ

/-! Closed forms of the teleportation circuit states. -/

lemma teleA_val (θ : ℝ) : ∀ i < 8, teleA θ i =
    if i.testBit 1 = i.testBit 2 then Real.cos (θ/2) / 2
    else if i.testBit 0 then -(Real.sin (θ/2) / 2) else Real.sin (θ/2) / 2 := by
  intro i hi
  interval_cases i <;>
    simp +decide [teleA, applyU, applyM, applyCX, hMat, ryMat, initAmp,
      ← mul_assoc, invSqrt2_mul_self] <;>
    try ring

lemma pOutcome_teleA (θ : ℝ) (o : Bool) : pOutcome 3 0 o (teleA θ) = 1 / 2 := by
  have h := teleA_val θ
  have e0 := h 0 (by norm_num)
  have e1 := h 1 (by norm_num)
  have e2 := h 2 (by norm_num)
  have e3 := h 3 (by norm_num)
  have e4 := h 4 (by norm_num)
  have e5 := h 5 (by norm_num)
  have e6 := h 6 (by norm_num)
  have e7 := h 7 (by norm_num)
  have hcs := Real.sin_sq_add_cos_sq (θ / 2)
  cases o <;>
    · simp +decide [pOutcome, Finset.sum_range_succ, e0, e1, e2, e3, e4, e5, e6, e7]
      nlinarith [hcs]

lemma teleB_val (θ : ℝ) (o1 : Bool) : ∀ i < 8, teleB θ o1 i =
    if i.testBit 0 = o1 then teleA θ i * Real.sqrt 2 else 0 := by
  intro i hi
  unfold teleB collapse
  rw [pOutcome_teleA, sqrt_half]
  by_cases h : i.testBit 0 = o1 <;> simp [h, div_inv_eq_mul]

lemma pOutcome_teleB (θ : ℝ) (o1 o2 : Bool) : pOutcome 3 1 o2 (teleB θ o1) = 1 / 2 := by
  have h := teleB_val θ o1
  have e0 := h 0 (by norm_num)
  have e1 := h 1 (by norm_num)
  have e2 := h 2 (by norm_num)
  have e3 := h 3 (by norm_num)
  have e4 := h 4 (by norm_num)
  have e5 := h 5 (by norm_num)
  have e6 := h 6 (by norm_num)
  have e7 := h 7 (by norm_num)
  have ha := teleA_val θ
  have a0 := ha 0 (by norm_num)
  have a1 := ha 1 (by norm_num)
  have a2 := ha 2 (by norm_num)
  have a3 := ha 3 (by norm_num)
  have a4 := ha 4 (by norm_num)
  have a5 := ha 5 (by norm_num)
  have a6 := ha 6 (by norm_num)
  have a7 := ha 7 (by norm_num)
  have hcs := Real.sin_sq_add_cos_sq (θ / 2)
  have h2 : Real.sqrt 2 * Real.sqrt 2 = 2 := Real.mul_self_sqrt (by norm_num)
  cases o1 <;> cases o2 <;>
    · simp +decide [pOutcome, Finset.sum_range_succ, e0, e1, e2, e3, e4, e5, e6, e7,
        a0, a1, a2, a3, a4, a5, a6, a7]
      nlinarith [hcs, h2]

lemma teleC_val (θ : ℝ) (o1 o2 : Bool) : ∀ i < 8, teleC θ o1 o2 i =
    if i.testBit 0 = o1 ∧ i.testBit 1 = o2 then 2 * teleA θ i else 0 := by
  intro i hi
  have h2 : Real.sqrt 2 * Real.sqrt 2 = 2 := Real.mul_self_sqrt (by norm_num)
  unfold teleC collapse
  rw [pOutcome_teleB, sqrt_half]
  rw [teleB_val θ o1 i hi]
  by_cases hb1 : i.testBit 1 = o2 <;> by_cases hb0 : i.testBit 0 = o1 <;>
    simp [hb1, hb0, div_inv_eq_mul, mul_assoc, h2] <;> try ring

lemma teleFinal_val (θ : ℝ) (o1 o2 : Bool) : ∀ i < 8, teleFinalAmp θ o1 o2 i =
    if i.testBit 0 = o1 ∧ i.testBit 1 = o2 then
      (if i.testBit 2 then Real.sin (θ / 2) else Real.cos (θ / 2))
    else 0 := by
  have hc := teleC_val θ o1 o2
  have c0 := hc 0 (by norm_num)
  have c1 := hc 1 (by norm_num)
  have c2 := hc 2 (by norm_num)
  have c3 := hc 3 (by norm_num)
  have c4 := hc 4 (by norm_num)
  have c5 := hc 5 (by norm_num)
  have c6 := hc 6 (by norm_num)
  have c7 := hc 7 (by norm_num)
  have ha := teleA_val θ
  have a0 := ha 0 (by norm_num)
  have a1 := ha 1 (by norm_num)
  have a2 := ha 2 (by norm_num)
  have a3 := ha 3 (by norm_num)
  have a4 := ha 4 (by norm_num)
  have a5 := ha 5 (by norm_num)
  have a6 := ha 6 (by norm_num)
  have a7 := ha 7 (by norm_num)
  intro i hi
  cases o1 <;> cases o2 <;> interval_cases i <;>
    simp +decide [teleFinalAmp, applyU, applyM, xMat, zMat,
      c0, c1, c2, c3, c4, c5, c6, c7, a0, a1, a2, a3, a4, a5, a6, a7] <;>
    try ring

lemma qc_protocol_exec (θ : ℝ) (o1 o2 : Bool) :
    execOps 3 (teleDraw o1 o2) (qc_protocol_ops θ) 0 ⟨initAmp, [none, none]⟩ =
      .ok (⟨teleFinalAmp θ o1 o2, [some o1, some o2]⟩, 2) := by
  have hp1 : pOutcome 3 0 o1 (teleA θ) ≠ 0 := by rw [pOutcome_teleA]; norm_num
  have hp2 : pOutcome 3 1 o2 (teleB θ o1) ≠ 0 := by rw [pOutcome_teleB]; norm_num
  show execOps 3 (teleDraw o1 o2)
      [Op.unitary (UGate.ry θ 0), Op.barrier, Op.unitary (UGate.had 1),
       Op.unitary (UGate.cx 1 2), Op.barrier, Op.unitary (UGate.cx 0 1),
       Op.unitary (UGate.had 0), Op.barrier, Op.measure 0 0, Op.measure 1 1,
       Op.barrier, Op.cond 1 true (UGate.x 2), Op.cond 0 true (UGate.z 2)]
      0 ⟨initAmp, [none, none]⟩ = _
  simp only [execOps]
  rw [show applyU (UGate.had 0) (applyU (UGate.cx 0 1) (applyU (UGate.cx 1 2)
        (applyU (UGate.had 1) (applyU (UGate.ry θ 0) initAmp)))) = teleA θ from rfl]
  rw [show teleDraw o1 o2 0 (pOutcome 3 0 true (teleA θ)) = o1 from rfl]
  rw [show measureStep 3 0 0 o1 ⟨teleA θ, [none, none]⟩ =
        .ok ⟨teleB θ o1, [some o1, none]⟩ from by
      unfold measureStep
      rw [if_neg hp1]
      rfl]
  simp only [execOps]
  rw [show teleDraw o1 o2 1 (pOutcome 3 1 true (teleB θ o1)) = o2 from rfl]
  rw [show measureStep 3 1 1 o2 ⟨teleB θ o1, [some o1, none]⟩ =
        .ok ⟨teleC θ o1 o2, [some o1, some o2]⟩ from by
      unfold measureStep
      rw [if_neg hp2]
      rfl]
  simp only [execOps]
  cases o1 <;> cases o2 <;>
    simp [condStep, teleFinalAmp, execOps]

/-! Reduced density matrices of the protocol states. -/

lemma sv_verify (θ : ℝ) : runStatevector (qc_verify_ops θ) initAmp = teleA θ := rfl

lemma teleA_mixed (θ : ℝ) :
    reducedDM 3 2 (teleA θ) = fun a b => if a = b then 1 / 2 else 0 := by
  have h := teleA_val θ
  have e0 := h 0 (by norm_num)
  have e1 := h 1 (by norm_num)
  have e2 := h 2 (by norm_num)
  have e3 := h 3 (by norm_num)
  have e4 := h 4 (by norm_num)
  have e5 := h 5 (by norm_num)
  have e6 := h 6 (by norm_num)
  have e7 := h 7 (by norm_num)
  have hcs := Real.sin_sq_add_cos_sq (θ / 2)
  funext a b
  fin_cases a <;> fin_cases b <;>
    · rw [reducedDM, Finset.sum_filter]
      simp +decide [Finset.sum_range_succ, e0, e1, e2, e3, e4, e5, e6, e7]
      try nlinarith [hcs]

lemma message_dm (θ : ℝ) : reducedDM 1 0 (messageAmp θ) = fun a b =>
    (if a = 0 then Real.cos (θ / 2) else Real.sin (θ / 2)) *
      (if b = 0 then Real.cos (θ / 2) else Real.sin (θ / 2)) := by
  funext a b
  fin_cases a <;> fin_cases b <;>
    · rw [reducedDM, Finset.sum_filter]
      simp +decide [Finset.sum_range_succ, messageAmp, applyU, applyM, ryMat, initAmp]

lemma final_dm (θ : ℝ) (o1 o2 : Bool) :
    reducedDM 3 2 (teleFinalAmp θ o1 o2) = reducedDM 1 0 (messageAmp θ) := by
  have h := teleFinal_val θ o1 o2
  have e0 := h 0 (by norm_num)
  have e1 := h 1 (by norm_num)
  have e2 := h 2 (by norm_num)
  have e3 := h 3 (by norm_num)
  have e4 := h 4 (by norm_num)
  have e5 := h 5 (by norm_num)
  have e6 := h 6 (by norm_num)
  have e7 := h 7 (by norm_num)
  rw [message_dm]
  funext a b
  cases o1 <;> cases o2 <;> fin_cases a <;> fin_cases b <;>
    · rw [reducedDM, Finset.sum_filter]
      simp +decide [Finset.sum_range_succ, e0, e1, e2, e3, e4, e5, e6, e7]

/-! Closed forms of the Bell circuit states. -/

lemma bell_val : ∀ i < 4, bellAmp i =
    if i = 0 ∨ i = 3 then (Real.sqrt 2)⁻¹ else 0 := by
  intro i hi
  interval_cases i <;>
    simp +decide [bellAmp, applyU, applyM, applyCX, hMat, initAmp]

lemma pBell (o : Bool) : pOutcome 2 0 o bellAmp = 1 / 2 := by
  have e0 := bell_val 0 (by norm_num)
  have e1 := bell_val 1 (by norm_num)
  have e2 := bell_val 2 (by norm_num)
  have e3 := bell_val 3 (by norm_num)
  cases o <;>
    · simp +decide [pOutcome, Finset.sum_range_succ, e0, e1, e2, e3]
      try nlinarith [invSqrt2_mul_self]

lemma bellColl_val (o : Bool) : ∀ i < 4, bellColl o i =
    if i.testBit 0 = o then bellAmp i * Real.sqrt 2 else 0 := by
  intro i hi
  unfold bellColl collapse
  rw [pBell, sqrt_half]
  by_cases h : i.testBit 0 = o <;> simp [h, div_inv_eq_mul]

lemma pBellColl (o o2 : Bool) : pOutcome 2 1 o2 (bellColl o) =
    if o2 = o then 1 else 0 := by
  have e0 := bellColl_val o 0 (by norm_num)
  have e1 := bellColl_val o 1 (by norm_num)
  have e2 := bellColl_val o 2 (by norm_num)
  have e3 := bellColl_val o 3 (by norm_num)
  have b0 := bell_val 0 (by norm_num)
  have b1 := bell_val 1 (by norm_num)
  have b2 := bell_val 2 (by norm_num)
  have b3 := bell_val 3 (by norm_num)
  have h2 : Real.sqrt 2 * Real.sqrt 2 = 2 := Real.mul_self_sqrt (by norm_num)
  cases o <;> cases o2 <;>
    · simp +decide [pOutcome, Finset.sum_range_succ, e0, e1, e2, e3, b0, b1, b2, b3]
      try nlinarith [invSqrt2_mul_self, h2]

lemma spooky_trial_core (u1 u2 : ℝ) (o : Bool) (ho : drawOutcome u1 (1 / 2) = o)
    (h0 : 0 ≤ u2) (h1 : u2 < 1) :
    trialBits spooky_circuit (uniformDraw (pairStream u1 u2)) = .ok [some o, some o] := by
  have hp1 : pOutcome 2 0 o bellAmp ≠ 0 := by rw [pBell]; norm_num
  have hd1 : uniformDraw (pairStream u1 u2) 0 (pOutcome 2 0 true bellAmp) = o := by
    rw [show pOutcome 2 0 true bellAmp = 1 / 2 from pBell true]
    exact ho
  have hd2 : uniformDraw (pairStream u1 u2) (0 + 1) (pOutcome 2 1 true (bellColl o)) = o := by
    rw [pBellColl]
    unfold uniformDraw pairStream drawOutcome
    rw [if_neg (by norm_num : ¬ 0 + 1 = 0)]
    cases o
    · rw [if_neg (by simp)]
      simpa using not_lt.mpr h0
    · rw [if_pos rfl]
      simpa using h1
  have hp2 : pOutcome 2 1 o (bellColl o) ≠ 0 := by
    rw [pBellColl, if_pos rfl]
    norm_num
  unfold trialBits spooky_circuit
  simp only [execOps]
  rw [show applyU (UGate.cx 0 1) (applyU (UGate.had 0) initAmp) = bellAmp from rfl]
  rw [hd1]
  rw [show measureStep 2 0 0 o ⟨bellAmp, List.replicate 2 none⟩ =
        .ok ⟨bellColl o, [some o, none]⟩ from by
      unfold measureStep
      rw [if_neg hp1]
      rfl]
  simp only [execOps]
  rw [hd2]
  rw [show measureStep 2 1 1 o ⟨bellColl o, [some o, none]⟩ =
        .ok ⟨collapse 2 1 o (bellColl o), [some o, some o]⟩ from by
      unfold measureStep
      rw [if_neg hp2]
      rfl]
  simp only [execOps]
  rfl

lemma spooky_trial (u1 u2 : ℝ) (h0 : 0 ≤ u2) (h1 : u2 < 1) :
    trialBits spooky_circuit (uniformDraw (pairStream u1 u2)) =
      .ok [some (decide (u1 < 1 / 2)), some (decide (u1 < 1 / 2))] :=
  spooky_trial_core u1 u2 (decide (u1 < 1 / 2)) rfl h0 h1

lemma sv_spooky : runStatevector spooky_circuit.ops initAmp = bellAmp := rfl

/-! General sampling and statevector mode agreement. -/

lemma pOutcome_nonneg (n q : ℕ) (o : Bool) (ψ : ℕ → ℝ) : 0 ≤ pOutcome n q o ψ := by
  apply Finset.sum_nonneg
  intro i _
  split
  · positivity
  · exact le_rfl

lemma pOutcome_filter (n q : ℕ) (o : Bool) (ψ : ℕ → ℝ) :
    pOutcome n q o ψ =
      ∑ i ∈ (Finset.range (2 ^ n)).filter (fun i => i.testBit q = o), ψ i ^ 2 :=
  (Finset.sum_filter _ _).symm

lemma collapse_sq (n q : ℕ) (o : Bool) (ψ : ℕ → ℝ) (i : ℕ) :
    collapse n q o ψ i ^ 2 =
      if i.testBit q = o then ψ i ^ 2 / pOutcome n q o ψ else 0 := by
  unfold collapse
  split
  · rw [div_pow, Real.sq_sqrt (pOutcome_nonneg n q o ψ)]
  · rw [zero_pow]
    norm_num

lemma collapse_sumSq (n q : ℕ) (o : Bool) (ψ : ℕ → ℝ)
    (hp : pOutcome n q o ψ ≠ 0) : sumSq n (collapse n q o ψ) = 1 := by
  unfold sumSq
  rw [Finset.sum_congr rfl (fun i _ => collapse_sq n q o ψ i)]
  rw [Finset.sum_congr rfl (fun i _ => by
    rw [show (if i.testBit q = o then ψ i ^ 2 / pOutcome n q o ψ else 0) =
      (if i.testBit q = o then ψ i ^ 2 else 0) / pOutcome n q o ψ from by
        split <;> simp])]
  rw [← Finset.sum_div]
  rw [show (∑ i ∈ Finset.range (2 ^ n), if i.testBit q = o then ψ i ^ 2 else 0) =
    pOutcome n q o ψ from rfl]
  exact div_self hp

lemma bornProb_nil (n : ℕ) (os : List Bool) (ψ : ℕ → ℝ) :
    bornProb n [] os ψ = sumSq n ψ := by
  unfold bornProb sumSq
  congr 1
  ext i
  simp

lemma bornProb_cons (n q : ℕ) (o : Bool) (qs : List ℕ) (os : List Bool) (ψ : ℕ → ℝ) :
    bornProb n (q :: qs) (o :: os) ψ =
      ∑ i ∈ (Finset.range (2 ^ n)).filter
        (fun i => i.testBit q = o ∧ ∀ p ∈ qs.zip os, i.testBit p.1 = p.2), ψ i ^ 2 := by
  unfold bornProb
  congr 1
  ext i
  simp [List.forall_mem_cons]

lemma seqProb_eq_bornProb (n : ℕ) : ∀ (qs : List ℕ) (os : List Bool) (ψ : ℕ → ℝ),
    qs.length = os.length → sumSq n ψ = 1 →
    seqProb n qs os ψ = bornProb n qs os ψ := by
  intro qs
  induction qs with
  | nil =>
      intro os ψ hlen hψ
      cases os with
      | nil =>
          rw [bornProb_nil, hψ]
          rfl
      | cons o os => simp at hlen
  | cons q qs ih =>
      intro os ψ hlen hψ
      cases os with
      | nil => simp at hlen
      | cons o os =>
          have hlen2 : qs.length = os.length := by simpa using hlen
          show pOutcome n q o ψ * seqProb n qs os (collapse n q o ψ) = _
          by_cases hp : pOutcome n q o ψ = 0
          · rw [hp, zero_mul, bornProb_cons]
            have hle : ∑ i ∈ (Finset.range (2 ^ n)).filter
                (fun i => i.testBit q = o ∧ ∀ p ∈ qs.zip os, i.testBit p.1 = p.2),
                  ψ i ^ 2 ≤
                ∑ i ∈ (Finset.range (2 ^ n)).filter (fun i => i.testBit q = o),
                  ψ i ^ 2 := by
              apply Finset.sum_le_sum_of_subset_of_nonneg
              · intro i hi
                simp only [Finset.mem_filter] at hi ⊢
                exact ⟨hi.1, hi.2.1⟩
              · intro i _ _
                positivity
            have hge : (0:ℝ) ≤ ∑ i ∈ (Finset.range (2 ^ n)).filter
                (fun i => i.testBit q = o ∧ ∀ p ∈ qs.zip os, i.testBit p.1 = p.2),
                  ψ i ^ 2 := by
              apply Finset.sum_nonneg
              intro i _
              positivity
            rw [← pOutcome_filter, hp] at hle
            linarith
          · have hstep : (∑ i ∈ (Finset.range (2 ^ n)).filter
                (fun i => ∀ p ∈ qs.zip os, i.testBit p.1 = p.2),
                  pOutcome n q o ψ * collapse n q o ψ i ^ 2) =
                ∑ i ∈ (Finset.range (2 ^ n)).filter
                  (fun i => ∀ p ∈ qs.zip os, i.testBit p.1 = p.2),
                  (if i.testBit q = o then ψ i ^ 2 else 0) := by
              apply Finset.sum_congr rfl
              intro i _
              rw [collapse_sq]
              split
              · rw [mul_comm, div_mul_cancel₀ _ hp]
              · rw [mul_zero]
            rw [ih os (collapse n q o ψ) hlen2 (collapse_sumSq n q o ψ hp)]
            rw [bornProb_cons]
            unfold bornProb
            rw [Finset.mul_sum, hstep, ← Finset.sum_filter, Finset.filter_filter]
            congr 1
            ext i
            simp only [Finset.mem_filter]
            tauto

lemma exec_gates (n : ℕ) (draw : ℕ → ℝ → Bool) :
    ∀ (L : List Op), (∀ op ∈ L, op.validGate n) → ∀ (k : ℕ) (st : ExecState),
    execOps n draw L k st = .ok (⟨runStatevector L st.amp, st.cbits⟩, k) := by
  intro L
  induction L with
  | nil =>
      intro _ k st
      rfl
  | cons op rest ih =>
      intro hL k st
      have hrest : ∀ op ∈ rest, op.validGate n := fun o ho => hL o (List.mem_cons_of_mem _ ho)
      cases op with
      | unitary u => exact ih hrest k ⟨applyU u st.amp, st.cbits⟩
      | barrier => exact ih hrest k st
      | measure q cb => exact absurd (hL _ (List.mem_cons_self _ _)) (by simp [Op.validGate])
      | cond cb expected u => exact absurd (hL _ (List.mem_cons_self _ _)) (by simp [Op.validGate])

lemma sumSq_initAmp (n : ℕ) : sumSq n initAmp = 1 := by
  unfold sumSq
  rw [Finset.sum_eq_single 0]
  · simp [initAmp]
  · intro i _ hi
    simp [initAmp, hi]
  · intro h
    exact absurd (Finset.mem_range.mpr (Nat.pos_pow_of_pos n (by norm_num))) h

lemma sv_normalized (n : ℕ) : ∀ (L : List Op) (ψ : ℕ → ℝ),
    (∀ op ∈ L, op.validGate n) → sumSq n ψ = 1 →
    sumSq n (runStatevector L ψ) = 1 := by
  intro L
  induction L with
  | nil =>
      intro ψ _ hψ
      exact hψ
  | cons op rest ih =>
      intro ψ hL hψ
      have hrest : ∀ op ∈ rest, op.validGate n := fun o ho => hL o (List.mem_cons_of_mem _ ho)
      cases op with
      | unitary u =>
          have hu : u.valid n := hL _ (List.mem_cons_self _ _)
          exact ih (applyU u ψ) hrest (by rw [applyU_sumSq n u hu ψ]; exact hψ)
      | barrier => exact ih ψ hrest hψ
      | measure q cb => exact absurd (hL _ (List.mem_cons_self _ _)) (by simp [Op.validGate])
      | cond cb expected u => exact absurd (hL _ (List.mem_cons_self _ _)) (by simp [Op.validGate])

end QC

namespace QC

/-- C2: applying Hadamard to qubit zero and then controlled-NOT with control
zero and target one to the all-zeros two-qubit state yields amplitude one
over the square root of two on basis states 00 and 11 and amplitude zero on
01 and 10, for the Bell circuit of src/spooky_cq.py. -/
theorem bell_pair_amplitudes : ∀ i : Fin 4,
    runStatevector spooky_circuit.ops initAmp i.val =
      if i.val = 0 ∨ i.val = 3 then (Real.sqrt 2)⁻¹ else 0 := by
  intro i
  rw [sv_spooky]
  exact bell_val i.val i.isLt

/-- C3: for every gate of the supported set that is valid on the register
and every normalized amplitude vector, a single application of the gate
leaves the total probability equal to one. -/
theorem unitary_preserves_total_probability (n : ℕ) (u : UGate) (ψ : ℕ → ℝ)
    (hu : u.valid n) (hψ : sumSq n ψ = 1) : sumSq n (applyU u ψ) = 1 := by
  rw [applyU_sumSq n u hu ψ, hψ]

/-- Witness for C3: the Hadamard gate on a one-qubit register applied to the
normalized all-zeros state keeps total probability one. -/
theorem unitary_preserves_total_probability_witness :
    UGate.valid 1 (UGate.had 0) ∧ sumSq 1 initAmp = 1 ∧
      sumSq 1 (applyU (UGate.had 0) initAmp) = 1 := by
  have hv : UGate.valid 1 (UGate.had 0) := by norm_num [UGate.valid]
  have hs : sumSq 1 initAmp = 1 := by
    simp [sumSq, Finset.sum_range_succ, initAmp]
  exact ⟨hv, hs, unitary_preserves_total_probability 1 (UGate.had 0) initAmp hv hs⟩

/-- C4: for every circuit whose operations are drawn from the supported gate
set, sampling mode agrees with statevector mode: executing any gate-only
operation list in sampling mode yields exactly the statevector-mode state and
consumes no randomness; the statevector-mode final state of any valid
gate-only circuit is normalized; the probability that sampling mode draws
any outcome sequence when measuring any qubits in order from any normalized
state equals the probability implied by that amplitude vector (sum of squared
magnitudes over matching basis states); and in particular, for the Bell-pair
circuit, the per-trial probability of each classical-bit pair (as the volume
of uniform first draws producing it) equals the squared statevector
amplitude of the corresponding basis state, so empirical frequencies over
10,000 shots approach one half for 00 and 11 and zero for 01 and 10 by the
law of large numbers. -/
theorem sampling_matches_statevector_distribution :
    (∀ (n : ℕ) (draw : ℕ → ℝ → Bool) (L : List Op) (k : ℕ) (st : ExecState),
      (∀ op ∈ L, op.validGate n) →
      execOps n draw L k st = .ok (⟨runStatevector L st.amp, st.cbits⟩, k)) ∧
    (∀ (n : ℕ) (L : List Op), (∀ op ∈ L, op.validGate n) →
      sumSq n (runStatevector L initAmp) = 1) ∧
    (∀ (n : ℕ) (qs : List ℕ) (os : List Bool) (ψ : ℕ → ℝ),
      qs.length = os.length → sumSq n ψ = 1 →
      seqProb n qs os ψ = bornProb n qs os ψ) ∧
    (∀ (b0 b1 : Bool) (u2 : ℝ), 0 ≤ u2 → u2 < 1 →
      MeasureTheory.volume {u1 : ℝ | u1 ∈ Set.Ico (0 : ℝ) 1 ∧
          trialBits spooky_circuit (uniformDraw (pairStream u1 u2)) =
            .ok [some b0, some b1]} =
        ENNReal.ofReal (runStatevector spooky_circuit.ops initAmp (bitsIdx b0 b1) ^ 2)) := by
  refine ⟨fun n draw L k st hL => exec_gates n draw L hL k st,
    fun n L hL => sv_normalized n L initAmp hL (sumSq_initAmp n),
    fun n qs os ψ hlen hψ => seqProb_eq_bornProb n qs os ψ hlen hψ, ?_⟩
  intro b0 b1 u2 h0 h1
  have hset : ∀ u1 : ℝ,
      (trialBits spooky_circuit (uniformDraw (pairStream u1 u2)) =
        .ok [some b0, some b1]) ↔
      (decide (u1 < 1 / 2) = b0 ∧ decide (u1 < 1 / 2) = b1) := by
    intro u1
    rw [spooky_trial u1 u2 h0 h1]
    constructor
    · intro h
      injection h with h
      injection h with h2 h
      injection h with h3 _
      exact ⟨Option.some_injective _ h2, Option.some_injective _ h3⟩
    · rintro ⟨h2, h3⟩
      rw [← h2, ← h3]
  have hsq : (Real.sqrt 2)⁻¹ ^ 2 = 1 / 2 := by
    rw [sq]
    exact invSqrt2_mul_self
  rw [sv_spooky]
  cases b0 <;> cases b1
  · have : {u1 : ℝ | u1 ∈ Set.Ico (0 : ℝ) 1 ∧
        trialBits spooky_circuit (uniformDraw (pairStream u1 u2)) =
          .ok [some false, some false]} = Set.Ico (1 / 2 : ℝ) 1 := by
      ext u1
      simp only [Set.mem_setOf_eq, Set.mem_Ico, hset, decide_eq_false_iff_not, not_lt]
      constructor
      · rintro ⟨⟨ha, hb⟩, hc, _⟩
        exact ⟨hc, hb⟩
      · rintro ⟨ha, hb⟩
        exact ⟨⟨by linarith, hb⟩, ha, ha⟩
    rw [this, Real.volume_Ico, show bellAmp (bitsIdx false false) = (Real.sqrt 2)⁻¹ from by
      rw [show bitsIdx false false = 0 from rfl]
      rw [bell_val 0 (by norm_num)]
      norm_num]
    rw [hsq]
    norm_num
  · have : {u1 : ℝ | u1 ∈ Set.Ico (0 : ℝ) 1 ∧
        trialBits spooky_circuit (uniformDraw (pairStream u1 u2)) =
          .ok [some false, some true]} = (∅ : Set ℝ) := by
      ext u1
      simp only [Set.mem_setOf_eq, Set.mem_empty_iff_false, iff_false, not_and, hset]
      intro _ h2 h3
      rw [h2] at h3
      exact Bool.false_ne_true h3
    rw [this]
    rw [show bellAmp (bitsIdx false true) = 0 from by
      rw [show bitsIdx false true = 2 from rfl]
      rw [bell_val 2 (by norm_num)]
      norm_num]
    simp
  · have : {u1 : ℝ | u1 ∈ Set.Ico (0 : ℝ) 1 ∧
        trialBits spooky_circuit (uniformDraw (pairStream u1 u2)) =
          .ok [some true, some false]} = (∅ : Set ℝ) := by
      ext u1
      simp only [Set.mem_setOf_eq, Set.mem_empty_iff_false, iff_false, not_and, hset]
      intro _ h2 h3
      rw [h2] at h3
      exact Bool.false_ne_true h3.symm
    rw [this]
    rw [show bellAmp (bitsIdx true false) = 0 from by
      rw [show bitsIdx true false = 1 from rfl]
      rw [bell_val 1 (by norm_num)]
      norm_num]
    simp
  · have : {u1 : ℝ | u1 ∈ Set.Ico (0 : ℝ) 1 ∧
        trialBits spooky_circuit (uniformDraw (pairStream u1 u2)) =
          .ok [some true, some true]} = Set.Ico (0 : ℝ) (1 / 2) := by
      ext u1
      simp only [Set.mem_setOf_eq, Set.mem_Ico, hset, decide_eq_true_eq]
      constructor
      · rintro ⟨⟨ha, _⟩, hc, _⟩
        exact ⟨ha, hc⟩
      · rintro ⟨ha, hb⟩
        exact ⟨⟨ha, by linarith⟩, hb, hb⟩
    rw [this, Real.volume_Ico, show bellAmp (bitsIdx true true) = (Real.sqrt 2)⁻¹ from by
      rw [show bitsIdx true true = 3 from rfl]
      rw [bell_val 3 (by norm_num)]
      norm_num]
    rw [hsq]
    norm_num

/-- Witness for C4: concrete instances of all four parts, a one-gate circuit
executed in both modes, its normalization, a one-measurement outcome
distribution, and the Bell outcome pair one-one, whose sampling probability
equals the squared statevector amplitude of basis state 11. -/
theorem sampling_matches_statevector_distribution_witness :
    (∀ op ∈ [Op.unitary (UGate.had 0)], Op.validGate 1 op) ∧
    execOps 1 (teleDraw false false) [Op.unitary (UGate.had 0)] 0 ⟨initAmp, []⟩ =
      .ok (⟨runStatevector [Op.unitary (UGate.had 0)] initAmp, []⟩, 0) ∧
    sumSq 1 (runStatevector [Op.unitary (UGate.had 0)] initAmp) = 1 ∧
    seqProb 1 [0] [true] initAmp = bornProb 1 [0] [true] initAmp ∧
    MeasureTheory.volume {u1 : ℝ | u1 ∈ Set.Ico (0 : ℝ) 1 ∧
        trialBits spooky_circuit (uniformDraw (pairStream u1 0)) =
          .ok [some true, some true]} =
      ENNReal.ofReal (runStatevector spooky_circuit.ops initAmp (bitsIdx true true) ^ 2) := by
  have hL : ∀ op ∈ [Op.unitary (UGate.had 0)], Op.validGate 1 op := by
    intro op hop
    rw [List.mem_singleton] at hop
    subst hop
    simp [Op.validGate, UGate.valid]
  refine ⟨hL, ?_, ?_, ?_, ?_⟩
  · exact sampling_matches_statevector_distribution.1 1 (teleDraw false false)
      [Op.unitary (UGate.had 0)] 0 ⟨initAmp, []⟩ hL
  · exact sampling_matches_statevector_distribution.2.1 1 [Op.unitary (UGate.had 0)] hL
  · exact sampling_matches_statevector_distribution.2.2.1 1 [0] [true] initAmp rfl
      (sumSq_initAmp 1)
  · exact sampling_matches_statevector_distribution.2.2.2 true true 0 (le_refl 0)
      (by norm_num)

end QC

namespace QC

/-- C5: the rotation-Y matrix is [[cos(θ/2), -sin(θ/2)], [sin(θ/2),
cos(θ/2)]], and applying it to a state whose target qubit is in the zero
state multiplies the zero-component amplitudes by cos(θ/2) and produces
sin(θ/2) times the paired amplitude on the one components, leaving the rest
of the register untouched. -/
theorem rotation_y_matrix_and_action (θ : ℝ) (q : ℕ) (ψ : ℕ → ℝ)
    (hzero : ∀ i, i.testBit q = true → ψ i = 0) :
    (ryMat θ = fun a b =>
      if a = 0 then (if b = 0 then Real.cos (θ / 2) else -Real.sin (θ / 2))
      else (if b = 0 then Real.sin (θ / 2) else Real.cos (θ / 2))) ∧
    ∀ i, applyM (ryMat θ) q ψ i =
      if i.testBit q then Real.sin (θ / 2) * ψ (i ^^^ 2 ^ q)
      else Real.cos (θ / 2) * ψ i := by
  refine ⟨rfl, ?_⟩
  intro i
  unfold applyM ryMat
  by_cases h : i.testBit q
  · have hz : ψ i = 0 := hzero i h
    simp [h, hz]
  · have hz : ψ (i ^^^ 2 ^ q) = 0 := by
      apply hzero
      rw [xor_flip_testBit]
      simp only [Bool.eq_false_iff, ne_eq] at h
      cases hb : i.testBit q
      · rfl
      · exact absurd hb h
    simp [h, hz]

/-- Witness for C5: the rotation at angle zero acting on the all-zeros state
of one qubit. -/
theorem rotation_y_matrix_and_action_witness :
    (∀ i : ℕ, i.testBit 0 = true → initAmp i = 0) ∧
      applyM (ryMat 0) 0 initAmp 0 = Real.cos (0 / 2) * initAmp 0 := by
  have hz : ∀ i : ℕ, i.testBit 0 = true → initAmp i = 0 := by
    intro i hi
    by_cases h : i = 0
    · subst h
      simp at hi
    · simp [initAmp, h]
  refine ⟨hz, ?_⟩
  have h := (rotation_y_matrix_and_action 0 0 initAmp hz).2 0
  simpa using h

/-- C6: measurement computes the outcome probability as the sum of squared
magnitudes over basis states whose target bit matches, fails with the
degenerate-collapse error exactly when that probability is zero, otherwise
zeroes mismatched amplitudes, renormalizes by the square root of the outcome
probability, and writes the outcome into the Classical Bit Store; a uniform
draw yields outcome one with probability p1. -/
theorem measurement_collapse_semantics (n q cb : ℕ) (o : Bool) (st : ExecState) :
    pOutcome n q true st.amp =
      (∑ i ∈ Finset.range (2 ^ n), if i.testBit q = true then st.amp i ^ 2 else 0) ∧
    (measureStep n q cb o st = .error .degenerateCollapse ↔
      pOutcome n q o st.amp = 0) ∧
    (pOutcome n q o st.amp ≠ 0 →
      measureStep n q cb o st = .ok ⟨fun i =>
        if i.testBit q = o then st.amp i / Real.sqrt (pOutcome n q o st.amp) else 0,
        st.cbits.set cb (some o)⟩) ∧
    (∀ p1 : ℝ, 0 ≤ p1 → p1 ≤ 1 →
      MeasureTheory.volume {u : ℝ | u ∈ Set.Ico (0 : ℝ) 1 ∧ drawOutcome u p1 = true} =
        ENNReal.ofReal p1) := by
  refine ⟨rfl, ?_, ?_, ?_⟩
  · unfold measureStep
    by_cases h : pOutcome n q o st.amp = 0
    · simp [h]
    · simp [h]
  · intro h
    unfold measureStep
    rw [if_neg h]
    rfl
  · intro p1 hp0 hp1
    have : {u : ℝ | u ∈ Set.Ico (0 : ℝ) 1 ∧ drawOutcome u p1 = true} =
        Set.Ico (0 : ℝ) p1 := by
      ext u
      simp only [Set.mem_setOf_eq, Set.mem_Ico, drawOutcome, decide_eq_true_eq]
      constructor
      · rintro ⟨⟨ha, _⟩, hc⟩
        exact ⟨ha, hc⟩
      · rintro ⟨ha, hb⟩
        exact ⟨⟨ha, by linarith⟩, hb⟩
    rw [this, Real.volume_Ico]
    norm_num

/-- Witness for C6: measuring outcome zero on the all-zeros one-qubit state,
whose outcome probability is one, collapses without error and records the
outcome; a uniform draw against probability one half has volume one half. -/
theorem measurement_collapse_semantics_witness :
    pOutcome 1 0 false initAmp ≠ 0 ∧
    measureStep 1 0 0 false ⟨initAmp, [none]⟩ =
      .ok ⟨fun i => if i.testBit 0 = false
          then initAmp i / Real.sqrt (pOutcome 1 0 false initAmp) else 0,
        [some false]⟩ ∧
    MeasureTheory.volume {u : ℝ | u ∈ Set.Ico (0 : ℝ) 1 ∧ drawOutcome u (1 / 2) = true} =
      ENNReal.ofReal (1 / 2) := by
  have hne : pOutcome 1 0 false initAmp ≠ 0 := by
    simp [pOutcome, Finset.sum_range_succ, initAmp]
  refine ⟨hne, ?_, ?_⟩
  · exact (measurement_collapse_semantics 1 0 0 false ⟨initAmp, [none]⟩).2.2.1 hne
  · exact (measurement_collapse_semantics 1 0 0 false ⟨initAmp, [none]⟩).2.2.2
      (1 / 2) (by norm_num) (by norm_num)

/-- C7: a conditional unitary whose referenced classical bit stores a value
different from the expected value leaves the execution state unchanged. -/
theorem conditional_noop_on_mismatch (cb : ℕ) (expected : Bool) (u : UGate)
    (st : ExecState) (v : Bool) (hv : st.cbits.getD cb none = some v)
    (hne : v ≠ expected) : condStep cb expected u st = .ok st := by
  unfold condStep
  rw [hv]
  simp [hne]

/-- Witness for C7: a conditional Pauli-X guarded on expected value one is a
no-op when the stored measured value is zero. -/
theorem conditional_noop_on_mismatch_witness :
    ((⟨initAmp, [some false]⟩ : ExecState).cbits.getD 0 none = some false) ∧
    false ≠ true ∧
    condStep 0 true (UGate.x 0) ⟨initAmp, [some false]⟩ =
      .ok ⟨initAmp, [some false]⟩ :=
  ⟨rfl, Bool.false_ne_true,
    conditional_noop_on_mismatch 0 true (UGate.x 0) ⟨initAmp, [some false]⟩
      false rfl Bool.false_ne_true⟩

/-- C8: appending a unitary with any out-of-range target qubit fails at
circuit-build time with the invalid-qubit-index error, producing no new
circuit (the original circuit value is untouched, the builder being pure). -/
theorem invalid_qubit_index_rejected (circ : Circuit) (u : UGate)
    (h : ∃ q ∈ u.targets, circ.numQubits ≤ q) :
    circ.applyUnitary u = .error .invalidQubitIndex := by
  unfold Circuit.applyUnitary
  rw [if_neg]
  obtain ⟨q, hq, hge⟩ := h
  intro hall
  rw [List.all_eq_true] at hall
  have := hall q hq
  simp at this
  omega

/-- Witness for C8: on a two-qubit circuit, appending a Pauli-X on qubit
index five is rejected. -/
theorem invalid_qubit_index_rejected_witness :
    (∃ q ∈ (UGate.x 5).targets, (⟨2, 2, []⟩ : Circuit).numQubits ≤ q) ∧
    Circuit.applyUnitary ⟨2, 2, []⟩ (UGate.x 5) = .error .invalidQubitIndex := by
  have h : ∃ q ∈ (UGate.x 5).targets, (⟨2, 2, []⟩ : Circuit).numQubits ≤ q :=
    ⟨5, by simp [UGate.targets], by norm_num⟩
  exact ⟨h, invalid_qubit_index_rejected _ _ h⟩

/-- C9: inserting a Barrier operation at any position of the operation list
does not change the result of execution, for every circuit, random source,
draw counter and starting state. -/
theorem barrier_insertion_noop (n : ℕ) (draw : ℕ → ℝ → Bool) (l1 l2 : List Op)
    (k : ℕ) (st : ExecState) :
    execOps n draw (l1 ++ Op.barrier :: l2) k st = execOps n draw (l1 ++ l2) k st := by
  induction l1 generalizing k st with
  | nil => rfl
  | cons op rest ih =>
      cases op with
      | unitary u => exact ih k ⟨applyU u st.amp, st.cbits⟩
      | barrier => exact ih k st
      | measure q cb =>
          simp only [List.cons_append, execOps]
          cases measureStep n q cb (draw k (pOutcome n q true st.amp)) st with
          | error e => rfl
          | ok st2 => exact ih (k + 1) st2
      | cond cb expected u =>
          simp only [List.cons_append, execOps]
          cases condStep cb expected u st with
          | error e => rfl
          | ok st2 => exact ih k st2

/-- C10: classical_communication_and_reconstruction appends the conditional X
guarded on cbit2 before the conditional Z guarded on cbit1, and in a trial
where both measured bits are one the target qubit receives X first and then
Z, in that order. -/
theorem conditional_corrections_order :
    (∀ msg ent tgt cbit1 cbit2 : ℕ,
      classical_communication_and_reconstruction msg ent tgt cbit1 cbit2 =
        [Op.measure msg cbit1, Op.measure ent cbit2, Op.barrier,
         Op.cond cbit2 true (UGate.x tgt), Op.cond cbit1 true (UGate.z tgt)]) ∧
    (∀ (n : ℕ) (draw : ℕ → ℝ → Bool) (k : ℕ) (st : ExecState),
      st.cbits.getD 0 none = some true → st.cbits.getD 1 none = some true →
      execOps n draw [Op.cond 1 true (UGate.x 2), Op.cond 0 true (UGate.z 2)] k st =
        .ok (⟨applyU (UGate.z 2) (applyU (UGate.x 2) st.amp), st.cbits⟩, k)) := by
  refine ⟨fun _ _ _ _ _ => rfl, ?_⟩
  intro n draw k st h1 h2
  simp only [execOps]
  rw [show condStep 1 true (UGate.x 2) st = .ok ⟨applyU (UGate.x 2) st.amp, st.cbits⟩ from by
    unfold condStep
    rw [h2]
    simp]
  simp only [execOps]
  rw [show condStep 0 true (UGate.z 2) ⟨applyU (UGate.x 2) st.amp, st.cbits⟩ =
      .ok ⟨applyU (UGate.z 2) (applyU (UGate.x 2) st.amp), st.cbits⟩ from by
    unfold condStep
    rw [show (⟨applyU (UGate.x 2) st.amp, st.cbits⟩ : ExecState).cbits.getD 0 none =
        some true from h1]
    simp]

/-- Witness for C10: executing the two conditional corrections from a state
whose Classical Bit Store holds one in both bits applies X and then Z. -/
theorem conditional_corrections_order_witness :
    ((⟨initAmp, [some true, some true]⟩ : ExecState).cbits.getD 0 none = some true) ∧
    ((⟨initAmp, [some true, some true]⟩ : ExecState).cbits.getD 1 none = some true) ∧
    execOps 3 (teleDraw false false)
        [Op.cond 1 true (UGate.x 2), Op.cond 0 true (UGate.z 2)] 2
        ⟨initAmp, [some true, some true]⟩ =
      .ok (⟨applyU (UGate.z 2) (applyU (UGate.x 2) initAmp),
            [some true, some true]⟩, 2) :=
  ⟨rfl, rfl, conditional_corrections_order.2 3 (teleDraw false false) 2
    ⟨initAmp, [some true, some true]⟩ rfl rfl⟩

end QC

namespace QC

/-- C1 (amended): for every rotation angle and every pair of measured
outcomes, a sampling trial of the full teleportation circuit succeeds,
records the outcomes in the Classical Bit Store, and leaves a final state
that places the message amplitudes cos(θ/2) and sin(θ/2) on qubit two
alongside the measured values of qubits zero and one, so qubit two's reduced
state equals the rotation-Y message state exactly in every trial (hence in
distribution); in statevector mode before collapse, where the code's
verification circuit omits measurement and corrections, qubit two's reduced
state is instead maximally mixed. -/
theorem teleportation_protocol_fidelity :
    (∀ (θ : ℝ) (o1 o2 : Bool), ∃ st : ExecState,
      execOps 3 (teleDraw o1 o2) (qc_protocol_ops θ) 0 ⟨initAmp, [none, none]⟩ =
        .ok (st, 2) ∧
      st.cbits = [some o1, some o2] ∧
      (∀ i : Fin 8, st.amp i.val =
        if i.val.testBit 0 = o1 ∧ i.val.testBit 1 = o2 then
          (if i.val.testBit 2 then Real.sin (θ / 2) else Real.cos (θ / 2))
        else 0) ∧
      reducedDM 3 2 st.amp = reducedDM 1 0 (messageAmp θ)) ∧
    (∀ θ : ℝ, reducedDM 3 2 (runStatevector (qc_verify_ops θ) initAmp) =
      fun a b => if a = b then 1 / 2 else 0) := by
  constructor
  · intro θ o1 o2
    refine ⟨⟨teleFinalAmp θ o1 o2, [some o1, some o2]⟩,
      qc_protocol_exec θ o1 o2, rfl, ?_, ?_⟩
    · intro i
      exact teleFinal_val θ o1 o2 i.val i.isLt
    · exact final_dm θ o1 o2
  · intro θ
    rw [sv_verify]
    exact teleA_mixed θ

/-- Counterexample to C1 as stated: in statevector mode before collapse, at
rotation angle pi over two, qubit two's reduced state after the verification
circuit of src/scripts/quantum_teleportation.py is not equal to the reduced
state of the rotation-Y message state. -/
theorem statevector_mode_reduced_state_counterexample :
    reducedDM 3 2 (runStatevector (qc_verify_ops (Real.pi / 2)) initAmp) ≠
      reducedDM 1 0 (messageAmp (Real.pi / 2)) := by
  intro h
  rw [sv_verify, teleA_mixed, message_dm] at h
  have h01 := congrFun (congrFun h 0) 1
  simp at h01
  rw [show Real.pi / 2 / 2 = Real.pi / 4 by ring] at h01
  rw [Real.cos_pi_div_four, Real.sin_pi_div_four] at h01
  have hpos : (0:ℝ) < Real.sqrt 2 := Real.sqrt_pos.mpr (by norm_num)
  rcases h01 with h01 | h01 <;> linarith

end QC
